import Mathlib

/-!
# Verification of pass2keepass2

A shallow embedding in Lean 4 of the pass→KeePass2 migration tool
(`pass2keepass2.py` and the `p2kp2` command line script), together with
theorems settling the specification claims about it.

Strings of the Python program are modelled as `List Char` (named `Str`
below); the Python string primitives used by the program
(`str.split`, `str.strip`, `str.find`, slicing) are reproduced on that
type.  Python dictionaries holding string keys and values are modelled
as association lists with in-place update, which matches `dict.update`
observationally (lookup returns the most recently written value).
-/

set_option autoImplicit false

namespace P2KP2V

/-- Python strings, modelled as lists of characters. -/
abbrev Str := List Char

/-! ## Python string primitives -/

/-- Python `s.split(sep)` for a one-character separator `c`: splits at every
occurrence of `c`, keeping empty fragments; the result is never empty
(`"".split(sep) == [""]`). -/
def pySplitCh (c : Char) : Str → List Str
  | [] => [[]]
  | x :: xs =>
    if x = c then [] :: pySplitCh c xs
    else
      match pySplitCh c xs with
      | [] => [[x]]
      | h :: t => (x :: h) :: t

/-- The whitespace characters removed by Python `str.strip()` (the ASCII ones;
the program only manipulates text where these can occur). -/
def pyIsSpace (c : Char) : Bool :=
  c = ' ' || c = '\t' || c = '\n' || c = '\r' || c = '\x0b' || c = '\x0c'

/-- Python `s.strip()`: remove leading and trailing whitespace. -/
def pyStrip (s : Str) : Str :=
  ((s.dropWhile pyIsSpace).reverse.dropWhile pyIsSpace).reverse

/-- Python `s.find(c)` for a one-character needle: index of the first
occurrence of `c` in `s`, or `-1` when absent. -/
def pyFind (c : Char) : Str → Int
  | [] => -1
  | x :: xs =>
    if x = c then 0
    else if pyFind c xs = -1 then -1 else pyFind c xs + 1

/-! ## Python dictionaries with string keys -/

/-- `d.update({k: v})` on a Python dict modelled as an association list:
replace the value of an existing key in place, otherwise append. -/
def dictUpdate : List (Str × Str) → Str → Str → List (Str × Str)
  | [], k, v => [(k, v)]
  | (a, b) :: t, k, v =>
    if a = k then (a, v) :: t else (a, b) :: dictUpdate t k v

/-- `d.get(k)` on a Python dict modelled as an association list. -/
def dictGet : List (Str × Str) → Str → Option Str
  | [], _ => none
  | (a, b) :: t, k => if a = k then some b else dictGet t k

/-! ## `PassKey` (src/pass2keepass2.py)

`PassKey.__init__` first sets `url`, `user` and `notes` to `""` and
`custom_properties` to `{}`, fills `groups` and `title` from the key path,
decrypts the key (an external subprocess, not modelled: the decrypted text is
taken as input here) and hands the text to `parse_key_string`. -/

structure PassKey where
  groups : List Str
  title : Str
  password : Str
  url : Str
  user : Str
  notes : Str
  custom_properties : List (Str × Str)
deriving Repr, DecidableEq

/-- `PassKey.to_skip`: lines skipped when parsing. -/
def to_skip : List Str := [['-', '-', '-'], []]

/-- `PassKey.is_valid_line`: "Accept as valid only lines in the format of
'key: value'" — `key_line.find(":") > 0`. -/
def is_valid_line (key_line : Str) : Bool :=
  pyFind ':' key_line > 0

/-- `PassKey.parse_key_line`: split once at the first colon
(`key_line.split(":", 1)`) and strip both halves.  (The source only ever
calls this on lines that contain a colon; on a colon-free line this
definition returns the whole line and `""` where Python would raise.) -/
def parse_key_line (key_line : Str) : Str × Str :=
  (pyStrip (key_line.takeWhile (fun c => ¬ c = ':')),
   pyStrip ((key_line.dropWhile (fun c => ¬ c = ':')).drop 1))

/-- The filtered and parsed `key: value` data that `parse_key_string`
extracts from the lines after the first one. -/
def parsedData (key_string : Str) : List (Str × Str) :=
  let lines := pySplitCh '\n' key_string
  (((lines.drop 1).filter
      (fun x => !(to_skip.contains x) && is_valid_line x)).map parse_key_line)

def urlS : Str := ['u', 'r', 'l']
def userS : Str := ['u', 's', 'e', 'r']
def notesS : Str := ['n', 'o', 't', 'e', 's']

/-- One iteration of the `for key, value in data` loop of
`parse_key_string`: route `url`, `user` and `notes` to the dedicated
fields, anything else into `custom_properties`. -/
def applyLine (k : PassKey) (p : Str × Str) : PassKey :=
  if p.1 = urlS then { k with url := p.2 }
  else if p.1 = userS then { k with user := p.2 }
  else if p.1 = notesS then { k with notes := p.2 }
  else { k with custom_properties := dictUpdate k.custom_properties p.1 p.2 }

/-- `PassKey.parse_key_string`: the first line becomes the password, the
remaining lines are filtered, parsed and folded into the key's fields. -/
def parse_key_string (k : PassKey) (key_string : Str) : PassKey :=
  let k := { k with password := (pySplitCh '\n' key_string).headD [] }
  (parsedData key_string).foldl applyLine k

/-- The `PassKey` as it stands right before `parse_key_string` runs:
`url`, `user`, `notes` empty and `custom_properties` the empty dict, with
`groups` and `title` already filled in. -/
def initKey (groups : List Str) (title : Str) : PassKey :=
  ⟨groups, title, [], [], [], [], []⟩

/-! ## Spec-side descriptions of the parser -/

/-- The first line of a text as the spec describes it: the characters before
the first newline, or the whole text when it contains no newline. -/
def specFirstLine (s : Str) : Str :=
  s.takeWhile (fun c => ¬ c = '\n')

/-- Splitting a line "once at its first colon into a (name, value) pair,
with both name and value stripped of surrounding whitespace". -/
def specSplitTrim (l : Str) : Str × Str :=
  (pyStrip (l.takeWhile (fun c => ¬ c = ':')),
   pyStrip ((l.dropWhile (fun c => ¬ c = ':')).drop 1))

/-- The lines the original claim says are kept: not blank, and containing a
colon separator. -/
def specKeepOrig (l : Str) : Bool :=
  !(l.isEmpty) && l.contains ':'

/-- The (name, value) pairs the original claim predicts for the lines after
the first one. -/
def specPairsOrig (key_string : Str) : List (Str × Str) :=
  (((pySplitCh '\n' key_string).drop 1).filter specKeepOrig).map specSplitTrim

/-- The lines actually kept: they contain a colon, and their first colon is
not at position zero (equivalently, they do not start with a colon). -/
def specKeepAmended (l : Str) : Bool :=
  l.contains ':' && !(l.headD ' ' == ':')

/-- The (name, value) pairs the amended claim predicts. -/
def specPairsAmended (key_string : Str) : List (Str × Str) :=
  (((pySplitCh '\n' key_string).drop 1).filter specKeepAmended).map specSplitTrim

/-! ## The value of the last line bearing a given name -/

/-- The value carried by the last (name, value) pair whose name is `n`, if
any: later lines overwrite earlier ones. -/
def lastVal (n : Str) (data : List (Str × Str)) : Option Str :=
  data.foldl (fun acc p => if p.1 = n then some p.2 else acc) none

/-! ## Key paths: `PassReader.get_keys`, `PassKey.get_groups`, `PassKey.get_title`

`os.walk` is an external primitive; its output is taken as input here: a
list of `(segs, files)` entries, one per directory, where `segs` is the
chain of directory names leading from the store root to that directory
(`[]` for the root itself) and `files` the filenames it holds, so that the
`dirpath` reported by `os.walk` is `root ++ sepJoin segs` for a root path
without a trailing separator. -/

/-- `"/" + s` for each segment, concatenated: the part a chain of
directory names contributes to an absolute path. -/
def sepJoin (segs : List Str) : Str :=
  segs.flatMap (fun s => '/' :: s)

/-- Segments joined with `/` and no leading separator: a relative path. -/
def interSlash : List Str → Str
  | [] => []
  | s :: rest => s ++ sepJoin rest

def gpgS : Str := ['.', 'g', 'p', 'g']

/-- Python `s.endswith(suffix)`: the last `len(suffix)` characters equal
the suffix. -/
def pyEndswith (s suffix : Str) : Bool :=
  s.drop (s.length - suffix.length) == suffix

/-- `os.path.join(dirpath, fn)[len(self.path):-4]` for the file `fn` in the
directory `segs` below `root`: the element `PassReader.get_keys`
contributes for one matching file. -/
def keyOfFile (root : Str) (segs : List Str) (fn : Str) : Str :=
  ((root ++ sepJoin segs ++ '/' :: fn).drop root.length).take
    ((root ++ sepJoin segs ++ '/' :: fn).length - 4 - root.length)

/-- `PassReader.get_keys`: one key per file whose name ends in `.gpg`,
obtained by slicing the root prefix and the extension off the joined
path. -/
def get_keys (root : Str) (walk : List (List Str × List Str)) : List Str :=
  walk.flatMap (fun w =>
    ((w.2).filter (fun fn => pyEndswith fn gpgS)).map (keyOfFile root w.1))

/-- The keys the original claim predicts: the file's path relative to the
root (directory segments and filename joined by `/`, no leading
separator), with the `.gpg` extension removed. -/
def specKeysOrig (walk : List (List Str × List Str)) : List Str :=
  walk.flatMap (fun w =>
    ((w.2).filter (fun fn => pyEndswith fn gpgS)).map
      (fun fn => interSlash (w.1 ++ [fn.take (fn.length - 4)])))

/-- The keys the amended claim predicts: a leading `/` followed by the
relative path with the `.gpg` extension removed. -/
def specKeysAmended (walk : List (List Str × List Str)) : List Str :=
  walk.flatMap (fun w =>
    ((w.2).filter (fun fn => pyEndswith fn gpgS)).map
      (fun fn => '/' :: interSlash (w.1 ++ [fn.take (fn.length - 4)])))

/-- `PassKey.get_title`: `key.split("/").pop()`, the last segment (the
split of a string is never empty, so `pop` always succeeds). -/
def get_title (key : Str) : Str :=
  (pySplitCh '/' key).getLastD []

/-- `PassKey.get_groups`: split at `/`, `pop()` the last element, then
`pop(0)` the first.  The first `pop` always succeeds; `pop(0)` raises
`IndexError` when nothing is left, i.e. when the key contains no `/` —
modelled as `none`. -/
def get_groups (key : Str) : Option (List Str) :=
  match (pySplitCh '/' key).dropLast with
  | [] => none
  | _ :: t => some t

/-! ## The KeePass database (pykeepass, as used by `P2KP2.add_key`)

The destination database is modelled by its group tree: a group has a
name, a list of subgroups and a list of entries.  `add_entry` appends an
entry; `add_group` appends an empty subgroup;
`find_groups(name=…, recursive=False, group=…, first=True)` returns the
first direct child with the given name. -/

structure KEntry where
  title : Str
  username : Str
  password : Str
  url : Str
  notes : Str
  props : List (Str × Str)
deriving Repr, DecidableEq

inductive KGroup where
  | node : Str → List KGroup → List KEntry → KGroup
deriving Repr

def KGroup.gname : KGroup → Str
  | .node n _ _ => n

def KGroup.subgroups : KGroup → List KGroup
  | .node _ s _ => s

def KGroup.entries : KGroup → List KEntry
  | .node _ _ es => es

/-- Replace the FIRST child named `g` by `f` applied to it;
`none` when no child bears that name. -/
def updateFirstNamed (g : Str) (f : KGroup → KGroup) :
    List KGroup → Option (List KGroup)
  | [] => none
  | c :: t =>
    if c.gname = g then some (f c :: t)
    else
      match updateFirstNamed g f t with
      | some t' => some (c :: t')
      | none => none

/-- The group-resolution loop of `P2KP2.add_key` followed by the entry
creation: walk the chain of group names from the given group, descending
into the first child with the wanted name and appending a fresh empty
group when none exists (`find_groups` / `add_group`), then append the
entry to the final group (`add_entry` and the subsequent field
assignments). -/
def addAlong : List Str → KEntry → KGroup → KGroup
  | [], e, .node n s es => .node n s (es ++ [e])
  | gn :: rest, e, .node n s es =>
    match updateFirstNamed gn (addAlong rest e) s with
    | some s' => .node n s' es
    | none => .node n (s ++ [addAlong rest e (.node gn [] [])]) es

/-- Follow a chain of group names by first-matching-child lookup. -/
def lookupPath : List Str → KGroup → Option KGroup
  | [], g => some g
  | n :: rest, g =>
    match g.subgroups.find? (fun c => c.gname == n) with
    | some c => lookupPath rest c
    | none => none

/-- The entries of the group reached by a chain of names ([] when the
chain resolves to nothing). -/
def entriesAt (p : List Str) (g : KGroup) : List KEntry :=
  match lookupPath p g with
  | some g' => g'.entries
  | none => []

/-- The entry `add_key` builds for a pass key: `add_entry(key_group,
key.title, key.user, key.password)`, then `entry.url = key.url`,
`entry.notes = key.notes`, then `entry.set_custom_property(key, value)`
for each custom pair. -/
def entryOfKey (k : PassKey) : KEntry :=
  let e : KEntry := ⟨k.title, k.user, k.password, [], [], []⟩
  let e := { e with url := k.url }
  let e := { e with notes := k.notes }
  k.custom_properties.foldl
    (fun acc p => { acc with props := dictUpdate acc.props p.1 p.2 }) e

/-- `P2KP2.add_key`: resolve or create the key's group chain from the root
group and add the entry carrying the key's data there. -/
def add_key (root : KGroup) (k : PassKey) : KGroup :=
  addAlong k.groups (entryOfKey k) root

/-- No two sibling groups share a name, anywhere in the tree. -/
inductive SibUnique : KGroup → Prop where
  | node (n : Str) (s : List KGroup) (es : List KEntry) :
      (s.map KGroup.gname).Nodup → (∀ g ∈ s, SibUnique g) →
      SibUnique (.node n s es)

/-! ## Files on disk: `P2KP2.__init__` and `populate_db`

The file system is modelled as an association list from paths to file
contents; a KeePass database file is modelled by the password and group
tree it will load to, and any other pre-existing file by an opaque blob.
`copyfile`, `PyKeePass(path)`, `db.save()` and `os.path.exists` act on
this model in the obvious way.  The content of the `empty.kdbx` template
the program copies is a binary artifact of the repository, passed in as
the parameter `tmpl`. -/

inductive KFile where
  | kdbx : Str → KGroup → KFile
  | blob : Nat → KFile

abbrev FS := List (Str × KFile)

def fsGet : FS → Str → Option KFile
  | [], _ => none
  | (q, f) :: t, p => if q = p then some f else fsGet t p

def fsSet : FS → Str → KFile → FS
  | [], p, f => [(p, f)]
  | (q, g) :: t, p, f => if q = p then (q, f) :: t else (q, g) :: fsSet t p f

/-- `DbAlreadyExistsException`: "Trying to overwrite an already existing
keepass db." -/
inductive DbAlreadyExistsException where
  | mk

/-- The `PyKeePass` object: the password and the group tree. -/
structure PyKP where
  password : Str
  root : KGroup

/-- `P2KP2.__init__` of src/pass2keepass2.py: raise when the destination
exists, otherwise copy `empty.kdbx` (content `tmpl`) to the destination,
load it, set the supplied password and save.  The file system is threaded
explicitly; a raise returns it untouched, exactly as the Python `raise`
fires before any write. -/
def P2KP2_init (tmpl : PyKP) (password destination : Str) (fs : FS) :
    FS × Except DbAlreadyExistsException PyKP :=
  if (fsGet fs destination).isSome then (fs, .error .mk)
  else
    let fs1 := fsSet fs destination (.kdbx tmpl.password tmpl.root)
    let db : PyKP := { tmpl with password := password }
    let fs2 := fsSet fs1 destination (.kdbx db.password db.root)
    (fs2, .ok db)

/-- Modelled from the spec: the `p2kp2` package's `P2KP2.__init__` with
its `overwrite` flag, whose source is not in the repository snapshot (only
its caller `exec_normal_mode`, which passes
`overwrite=args.force_overwrite`, is).  Per the spec: "fails with a
'already exists' condition if the destination file is present and
overwrite was not requested; otherwise a fresh empty encrypted container
is created and immediately secured with the supplied passphrase."  With
`overwrite = false` it coincides with `P2KP2_init` above. -/
def P2KP2_init_ow (tmpl : PyKP) (password destination : Str)
    (overwrite : Bool) (fs : FS) :
    FS × Except DbAlreadyExistsException PyKP :=
  if (fsGet fs destination).isSome && !overwrite then (fs, .error .mk)
  else
    let fs1 := fsSet fs destination (.kdbx tmpl.password tmpl.root)
    let db : PyKP := { tmpl with password := password }
    let fs2 := fsSet fs1 destination (.kdbx db.password db.root)
    (fs2, .ok db)

/-- The `P2KP2` object: its database and the destination path it saves
to. -/
structure P2KP2St where
  db : PyKP
  destination : Str

/-- Modelled from the spec: `P2KP2.populate_db(reader)` of the `p2kp2`
package, whose source is not in the repository snapshot (only its caller
is).  Per the spec: "for each parsed source entry, resolve/create its
group chain, create a destination entry with title, user, secret; set URL
and notes fields; set each custom name/value pair as an additional field
on the entry; save the container afterward."  Every parsed key is added
with `add_key` (which is in src/) and the database is then saved to its
destination file. -/
def populate_db (st : P2KP2St) (keys : List PassKey) (fs : FS) :
    P2KP2St × FS :=
  let rootAfter := keys.foldl add_key st.db.root
  let st' : P2KP2St := { st with db := { st.db with root := rootAfter } }
  (st', fsSet fs st.destination (.kdbx st'.db.password rootAfter))

/-! ## Theorems -/

/-! ## Lemmas about the Python primitives -/

theorem pySplitCh_ne_nil (c : Char) (s : Str) : pySplitCh c s ≠ [] := by
  cases s with
  | nil => simp [pySplitCh]
  | cons x xs =>
    simp only [pySplitCh]
    split
    · simp
    · split <;> simp

theorem headD_pySplitCh (c : Char) (s : Str) :
    (pySplitCh c s).headD [] = s.takeWhile (fun x => ¬ x = c) := by
  induction s with
  | nil => simp [pySplitCh]
  | cons x xs ih =>
    simp only [pySplitCh, List.takeWhile]
    by_cases h : x = c
    · simp [h]
    · simp only [if_neg h]
      rcases hs : pySplitCh c xs with _ | ⟨hd, tl⟩
      · exact absurd hs (pySplitCh_ne_nil c xs)
      · rw [hs] at ih
        simp only [List.headD_cons] at ih
        simp [h, ih]

theorem neg_one_le_pyFind (c : Char) (l : Str) : -1 ≤ pyFind c l := by
  induction l with
  | nil => simp [pyFind]
  | cons x xs ih =>
    simp only [pyFind]
    split
    · omega
    · split <;> omega

theorem pyFind_eq_neg_one_iff (c : Char) (l : Str) :
    pyFind c l = -1 ↔ l.contains c = false := by
  induction l with
  | nil => simp [pyFind]
  | cons x xs ih =>
    simp only [pyFind, List.contains_cons]
    by_cases h : x = c
    · simp [h]
    · have hb : (c == x) = false := by
        simp only [beq_eq_false_iff_ne]
        exact fun hh => h hh.symm
      simp only [if_neg h, hb, Bool.false_or]
      by_cases hr : pyFind c xs = -1
      · rw [if_pos hr, ih.mp hr]
        simp
      · have h0 : -1 ≤ pyFind c xs := neg_one_le_pyFind c xs
        have hc : xs.contains c = true := by
          cases hcc : xs.contains c
          · exact absurd (ih.mpr hcc) hr
          · rfl
        simp only [if_neg hr, hc]
        constructor
        · intro habs; omega
        · intro habs; exact absurd habs (by simp)

theorem is_valid_line_eq_specKeepAmended (l : Str) :
    is_valid_line l = specKeepAmended l := by
  cases l with
  | nil => decide
  | cons x xs =>
    simp only [is_valid_line, specKeepAmended, pyFind, List.contains_cons,
      List.headD_cons]
    by_cases h : x = ':'
    · simp [h]
    · have hb : (':' == x) = false := by
        simp only [beq_eq_false_iff_ne]
        exact fun hh => h hh.symm
      have hb2 : (x == ':') = false := by simp [h]
      simp only [if_neg h, hb, hb2, Bool.false_or, Bool.not_false, Bool.and_true]
      by_cases hr : pyFind ':' xs = -1
      · rw [if_pos hr, (pyFind_eq_neg_one_iff ':' xs).mp hr]
        decide
      · have h0 : -1 ≤ pyFind ':' xs := neg_one_le_pyFind ':' xs
        have hc : xs.contains ':' = true := by
          cases hcc : xs.contains ':'
          · exact absurd ((pyFind_eq_neg_one_iff ':' xs).mpr hcc) hr
          · rfl
        simp only [if_neg hr, hc]
        have : (0 : Int) < pyFind ':' xs + 1 := by omega
        simp [this]

/-- The combined filter of `parse_key_string` (skip `to_skip` members and
invalid lines) coincides with the amended keep-condition: the `to_skip`
members `"---"` and `""` contain no colon, so `is_valid_line` already
rejects them. -/
theorem keep_eq_specKeepAmended (l : Str) :
    (!(to_skip.contains l) && is_valid_line l) = specKeepAmended l := by
  rw [← is_valid_line_eq_specKeepAmended]
  cases hv : is_valid_line l
  · simp
  · have hns : to_skip.contains l = false := by
      cases hc : to_skip.contains l
      · rfl
      · have hm : l ∈ to_skip := by simpa using hc
        have : l = ['-', '-', '-'] ∨ l = [] := by simpa [to_skip] using hm
        rcases this with h | h <;> rw [h] at hv <;> exact absurd hv (by decide)
    rw [hns]
    rfl

theorem foldl_lastVal_from (n : Str) (data : List (Str × Str)) (a : Option Str) :
    data.foldl (fun acc p => if p.1 = n then some p.2 else acc) a
      = (lastVal n data).elim a some := by
  induction data generalizing a with
  | nil => simp [lastVal]
  | cons p t ih =>
    rw [List.foldl_cons, ih]
    have hrhs : lastVal n (p :: t)
        = (lastVal n t).elim (if p.1 = n then some p.2 else none) some := by
      simp only [lastVal, List.foldl_cons]
      exact ih _
    rw [hrhs]
    cases lastVal n t with
    | some v => simp
    | none =>
      by_cases h : p.1 = n
      · simp [h]
      · simp [h]

theorem lastVal_cons (n : Str) (p : Str × Str) (t : List (Str × Str)) :
    lastVal n (p :: t)
      = (lastVal n t).elim (if p.1 = n then some p.2 else none) some := by
  simp only [lastVal, List.foldl_cons]
  exact foldl_lastVal_from n t _

/-- Sanity check that `lastVal` really is the value of the LAST matching
pair: appending a pair named `n` makes its value the result. -/
theorem lastVal_append_last (n : Str) (d : List (Str × Str)) (v : Str) :
    lastVal n (d ++ [(n, v)]) = some v := by
  simp [lastVal, List.foldl_append]

/-! ## How the parse loop acts on each field -/

theorem dictGet_dictUpdate_self (m : List (Str × Str)) (k v : Str) :
    dictGet (dictUpdate m k v) k = some v := by
  induction m with
  | nil => simp [dictUpdate, dictGet]
  | cons p t ih =>
    obtain ⟨a, b⟩ := p
    simp only [dictUpdate]
    by_cases h : a = k
    · simp [dictGet, h]
    · simp [dictGet, h, ih]

theorem dictGet_dictUpdate_ne (m : List (Str × Str)) (k v n : Str)
    (h : ¬ k = n) : dictGet (dictUpdate m k v) n = dictGet m n := by
  induction m with
  | nil => simp [dictUpdate, dictGet, h]
  | cons p t ih =>
    obtain ⟨a, b⟩ := p
    simp only [dictUpdate]
    by_cases ha : a = k
    · subst ha
      simp [dictGet, h]
    · simp only [if_neg ha, dictGet, ih]

theorem userS_ne_urlS : ¬ userS = urlS := by decide

theorem notesS_ne_urlS : ¬ notesS = urlS := by decide

theorem notesS_ne_userS : ¬ notesS = userS := by decide

theorem applyLine_password (k : PassKey) (p : Str × Str) :
    (applyLine k p).password = k.password := by
  by_cases h1 : p.1 = urlS <;> by_cases h2 : p.1 = userS <;>
    by_cases h3 : p.1 = notesS <;>
    simp [applyLine, h1, h2, h3, userS_ne_urlS, notesS_ne_urlS, notesS_ne_userS]

theorem applyLine_url_of_ne (k : PassKey) (p : Str × Str) (h : ¬ p.1 = urlS) :
    (applyLine k p).url = k.url := by
  by_cases h2 : p.1 = userS <;> by_cases h3 : p.1 = notesS <;>
    simp [applyLine, h, h2, h3, userS_ne_urlS, notesS_ne_urlS, notesS_ne_userS]

theorem applyLine_user_of_ne (k : PassKey) (p : Str × Str)
    (h : ¬ p.1 = userS) : (applyLine k p).user = k.user := by
  by_cases h1 : p.1 = urlS <;> by_cases h3 : p.1 = notesS <;>
    simp [applyLine, h1, h, h3, userS_ne_urlS, notesS_ne_urlS, notesS_ne_userS]

theorem applyLine_notes_of_ne (k : PassKey) (p : Str × Str)
    (h : ¬ p.1 = notesS) : (applyLine k p).notes = k.notes := by
  by_cases h1 : p.1 = urlS <;> by_cases h2 : p.1 = userS <;>
    simp [applyLine, h1, h2, h, userS_ne_urlS, notesS_ne_urlS, notesS_ne_userS]

theorem dictGet_applyLine_of_ne (k : PassKey) (p : Str × Str) (n : Str)
    (h : ¬ p.1 = n) :
    dictGet (applyLine k p).custom_properties n
      = dictGet k.custom_properties n := by
  have hd := dictGet_dictUpdate_ne k.custom_properties p.1 p.2 n h
  by_cases h1 : p.1 = urlS <;> by_cases h2 : p.1 = userS <;>
    by_cases h3 : p.1 = notesS <;>
    simp [applyLine, h1, h2, h3, hd, userS_ne_urlS, notesS_ne_urlS,
      notesS_ne_userS]

theorem foldl_applyLine_password (data : List (Str × Str)) (k : PassKey) :
    (data.foldl applyLine k).password = k.password := by
  induction data generalizing k with
  | nil => rfl
  | cons p t ih =>
    rw [List.foldl_cons, ih, applyLine_password]

theorem foldl_applyLine_url (data : List (Str × Str)) (k : PassKey) :
    (data.foldl applyLine k).url = (lastVal urlS data).elim k.url id := by
  induction data generalizing k with
  | nil => simp [lastVal]
  | cons p t ih =>
    rw [List.foldl_cons, ih, lastVal_cons]
    cases hl : lastVal urlS t with
    | some v => simp
    | none =>
      simp only [Option.elim]
      by_cases h : p.1 = urlS
      · simp [applyLine, h]
      · rw [if_neg h]
        exact applyLine_url_of_ne k p h

theorem foldl_applyLine_user (data : List (Str × Str)) (k : PassKey) :
    (data.foldl applyLine k).user = (lastVal userS data).elim k.user id := by
  induction data generalizing k with
  | nil => simp [lastVal]
  | cons p t ih =>
    rw [List.foldl_cons, ih, lastVal_cons]
    cases hl : lastVal userS t with
    | some v => simp
    | none =>
      simp only [Option.elim]
      by_cases h : p.1 = userS
      · simp [applyLine, h, show ¬ userS = urlS by decide]
      · rw [if_neg h]
        exact applyLine_user_of_ne k p h

theorem foldl_applyLine_notes (data : List (Str × Str)) (k : PassKey) :
    (data.foldl applyLine k).notes = (lastVal notesS data).elim k.notes id := by
  induction data generalizing k with
  | nil => simp [lastVal]
  | cons p t ih =>
    rw [List.foldl_cons, ih, lastVal_cons]
    cases hl : lastVal notesS t with
    | some v => simp
    | none =>
      simp only [Option.elim]
      by_cases h : p.1 = notesS
      · simp [applyLine, h, show ¬ notesS = urlS by decide,
          show ¬ notesS = userS by decide]
      · rw [if_neg h]
        exact applyLine_notes_of_ne k p h

theorem foldl_applyLine_custom (data : List (Str × Str)) (k : PassKey)
    (n : Str) (h1 : ¬ n = urlS) (h2 : ¬ n = userS) (h3 : ¬ n = notesS) :
    dictGet (data.foldl applyLine k).custom_properties n
      = (lastVal n data).elim (dictGet k.custom_properties n) some := by
  induction data generalizing k with
  | nil => simp [lastVal]
  | cons p t ih =>
    rw [List.foldl_cons, ih, lastVal_cons]
    cases hl : lastVal n t with
    | some v => simp
    | none =>
      simp only [Option.elim]
      by_cases h : p.1 = n
      · rw [if_pos h]
        have hu : ¬ p.1 = urlS := h ▸ h1
        have hus : ¬ p.1 = userS := h ▸ h2
        have hn : ¬ p.1 = notesS := h ▸ h3
        simp only [applyLine, if_neg hu, if_neg hus, if_neg hn, Option.elim]
        rw [h, dictGet_dictUpdate_self]
      · rw [if_neg h]
        exact dictGet_applyLine_of_ne k p n h

theorem dictGet_applyLine_urlS (k : PassKey) (p : Str × Str) :
    dictGet (applyLine k p).custom_properties urlS
      = dictGet k.custom_properties urlS := by
  by_cases h : p.1 = urlS
  · simp [applyLine, h]
  · exact dictGet_applyLine_of_ne k p urlS h

theorem dictGet_applyLine_userS (k : PassKey) (p : Str × Str) :
    dictGet (applyLine k p).custom_properties userS
      = dictGet k.custom_properties userS := by
  by_cases h : p.1 = userS
  · simp [applyLine, h, userS_ne_urlS]
  · exact dictGet_applyLine_of_ne k p userS h

theorem dictGet_applyLine_notesS (k : PassKey) (p : Str × Str) :
    dictGet (applyLine k p).custom_properties notesS
      = dictGet k.custom_properties notesS := by
  by_cases h : p.1 = notesS
  · simp [applyLine, h, notesS_ne_urlS, notesS_ne_userS]
  · exact dictGet_applyLine_of_ne k p notesS h

theorem foldl_applyLine_urlS (data : List (Str × Str)) (k : PassKey) :
    dictGet (data.foldl applyLine k).custom_properties urlS
      = dictGet k.custom_properties urlS := by
  induction data generalizing k with
  | nil => rfl
  | cons p t ih => rw [List.foldl_cons, ih, dictGet_applyLine_urlS]

theorem foldl_applyLine_userS (data : List (Str × Str)) (k : PassKey) :
    dictGet (data.foldl applyLine k).custom_properties userS
      = dictGet k.custom_properties userS := by
  induction data generalizing k with
  | nil => rfl
  | cons p t ih => rw [List.foldl_cons, ih, dictGet_applyLine_userS]

theorem foldl_applyLine_notesS (data : List (Str × Str)) (k : PassKey) :
    dictGet (data.foldl applyLine k).custom_properties notesS
      = dictGet k.custom_properties notesS := by
  induction data generalizing k with
  | nil => rfl
  | cons p t ih => rw [List.foldl_cons, ih, dictGet_applyLine_notesS]

/-! ## Claims about the parser (C3, C4, C5, C9) -/

/-- C5: for every decrypted key text, `parse_key_string` sets the key's
password to exactly the first line of the text — the characters before the
first newline, or the whole text if it contains no newline — verbatim and
untrimmed, whatever the remaining lines contain. -/
theorem claim_C5_password_is_first_line (k : PassKey) (s : Str) :
    (parse_key_string k s).password = specFirstLine s := by
  simp only [parse_key_string]
  rw [foldl_applyLine_password]
  exact headD_pySplitCh '\n' s

/-- C3 counterexample: the claim says exactly the blank lines and the lines
without a colon are skipped, so the line `":v"` (not blank, contains a
colon) should be parsed into `("", "v")`; the code skips it, because
`is_valid_line` requires the first colon to be at a positive index. -/
theorem claim_C3_counterexample :
    specKeepOrig (':' :: ['v']) = true
      ∧ parsedData ("pw\n:v".data) = []
      ∧ specPairsOrig ("pw\n:v".data) = [([], ['v'])] := by decide

/-- C3 (amended): of the lines after the first one, exactly those that
contain no colon or whose first colon sits at position zero are skipped
(blank lines contain no colon, so they are skipped too); every remaining
line is split once at its first colon into a (name, value) pair, with both
halves stripped of surrounding whitespace. -/
theorem claim_C3_kept_lines (s : Str) :
    parsedData s = specPairsAmended s := by
  simp only [parsedData, specPairsAmended]
  have hf : ((pySplitCh '\n' s).drop 1).filter
      (fun x => !(to_skip.contains x) && is_valid_line x)
      = ((pySplitCh '\n' s).drop 1).filter specKeepAmended :=
    List.filter_congr (fun x _ => keep_eq_specKeepAmended x)
  rw [hf]
  rfl

/-- C4: for every parsed (name, value) pair, names `url`, `user` and
`notes` are routed to the dedicated fields and any other name is
accumulated into `custom_properties`; in each case the value of the LAST
line bearing the name wins (`lastVal`), i.e. later lines overwrite earlier
ones. -/
theorem claim_C4_field_routing (gps : List Str) (ttl : Str) (s n : Str)
    (h1 : ¬ n = urlS) (h2 : ¬ n = userS) (h3 : ¬ n = notesS) :
    (parse_key_string (initKey gps ttl) s).url
        = (lastVal urlS (parsedData s)).elim [] id
      ∧ (parse_key_string (initKey gps ttl) s).user
        = (lastVal userS (parsedData s)).elim [] id
      ∧ (parse_key_string (initKey gps ttl) s).notes
        = (lastVal notesS (parsedData s)).elim [] id
      ∧ dictGet (parse_key_string (initKey gps ttl) s).custom_properties n
        = lastVal n (parsedData s) := by
  refine ⟨?_, ?_, ?_, ?_⟩
  · simp only [parse_key_string]
    rw [foldl_applyLine_url]
    rfl
  · simp only [parse_key_string]
    rw [foldl_applyLine_user]
    rfl
  · simp only [parse_key_string]
    rw [foldl_applyLine_notes]
    rfl
  · simp only [parse_key_string]
    rw [foldl_applyLine_custom _ _ n h1 h2 h3]
    cases hv : lastVal n (parsedData s) <;> simp [hv, dictGet, initKey]

/-- Witness for C4 at a concrete key text with a repeated custom name. -/
theorem claim_C4_field_routing_witness :
    (¬ ("foo".data = urlS)) ∧ (¬ ("foo".data = userS))
      ∧ (¬ ("foo".data = notesS))
      ∧ ((parse_key_string (initKey [] [])
            ("pw\nurl: a\nurl: b\nfoo: 1\nfoo: 2".data)).url
          = (lastVal urlS
              (parsedData ("pw\nurl: a\nurl: b\nfoo: 1\nfoo: 2".data))).elim
              [] id
        ∧ (parse_key_string (initKey [] [])
            ("pw\nurl: a\nurl: b\nfoo: 1\nfoo: 2".data)).user
          = (lastVal userS
              (parsedData ("pw\nurl: a\nurl: b\nfoo: 1\nfoo: 2".data))).elim
              [] id
        ∧ (parse_key_string (initKey [] [])
            ("pw\nurl: a\nurl: b\nfoo: 1\nfoo: 2".data)).notes
          = (lastVal notesS
              (parsedData ("pw\nurl: a\nurl: b\nfoo: 1\nfoo: 2".data))).elim
              [] id
        ∧ dictGet (parse_key_string (initKey [] [])
              ("pw\nurl: a\nurl: b\nfoo: 1\nfoo: 2".data)).custom_properties
              ("foo".data)
          = lastVal ("foo".data)
              (parsedData ("pw\nurl: a\nurl: b\nfoo: 1\nfoo: 2".data))) :=
  ⟨by decide, by decide, by decide,
    claim_C4_field_routing [] [] ("pw\nurl: a\nurl: b\nfoo: 1\nfoo: 2".data)
      ("foo".data) (by decide) (by decide) (by decide)⟩

/-- C9: whatever the input text, the `custom_properties` dict of a parsed
key never contains the reserved names `url`, `user` or `notes`: they are
always routed to the dedicated fields. -/
theorem claim_C9_reserved_names_absent (gps : List Str) (ttl : Str) (s : Str) :
    dictGet (parse_key_string (initKey gps ttl) s).custom_properties urlS
        = none
      ∧ dictGet (parse_key_string (initKey gps ttl) s).custom_properties userS
        = none
      ∧ dictGet (parse_key_string (initKey gps ttl) s).custom_properties notesS
        = none := by
  refine ⟨?_, ?_, ?_⟩
  · simp only [parse_key_string]
    rw [foldl_applyLine_urlS]
    rfl
  · simp only [parse_key_string]
    rw [foldl_applyLine_userS]
    rfl
  · simp only [parse_key_string]
    rw [foldl_applyLine_notesS]
    rfl

theorem pyEndswith_decomp (s suffix : Str) (h : pyEndswith s suffix = true) :
    s = s.take (s.length - suffix.length) ++ suffix := by
  have hd : s.drop (s.length - suffix.length) = suffix := by
    simpa [pyEndswith] using h
  conv_lhs => rw [← List.take_append_drop (s.length - suffix.length) s]
  rw [hd]

theorem sepJoin_append (a b : List Str) :
    sepJoin (a ++ b) = sepJoin a ++ sepJoin b := by
  simp [sepJoin]

theorem sepJoin_eq_cons_interSlash (s : Str) (rest : List Str) :
    sepJoin (s :: rest) = '/' :: interSlash (s :: rest) := by
  simp [sepJoin, interSlash]

theorem sepJoin_singleton_append (segs : List Str) (stem : Str) :
    sepJoin segs ++ '/' :: stem = '/' :: interSlash (segs ++ [stem]) := by
  have h1 : sepJoin segs ++ '/' :: stem = sepJoin (segs ++ [stem]) := by
    rw [sepJoin_append]
    simp [sepJoin]
  rw [h1]
  cases segs with
  | nil => simp [sepJoin, interSlash]
  | cons s rest =>
    rw [List.cons_append, sepJoin_eq_cons_interSlash]

/-- Evaluating the slice `os.path.join(dirpath, fn)[len(self.path):-4]`:
for a filename ending in `.gpg` it yields `/` followed by the relative
path of the file with the extension removed. -/
theorem keyOfFile_eq (root : Str) (segs : List Str) (fn : Str)
    (h : pyEndswith fn gpgS = true) :
    keyOfFile root segs fn
      = '/' :: interSlash (segs ++ [fn.take (fn.length - 4)]) := by
  have hfn : fn = fn.take (fn.length - 4) ++ gpgS := pyEndswith_decomp fn gpgS h
  set stem := fn.take (fn.length - 4) with hstem
  have hlen4 : fn.length = stem.length + 4 := by
    conv_lhs => rw [hfn]
    simp [gpgS]
  unfold keyOfFile
  rw [List.append_assoc]
  rw [List.drop_left]
  have hamount : (root ++ (sepJoin segs ++ '/' :: fn)).length - 4 - root.length
      = (sepJoin segs ++ '/' :: stem).length := by
    simp only [List.length_append, List.length_cons]
    omega
  rw [hamount]
  have hX : sepJoin segs ++ '/' :: fn
      = (sepJoin segs ++ '/' :: stem) ++ gpgS := by
    rw [List.append_assoc]
    congr 1
    conv_rhs => rw [List.cons_append]
    rw [← hfn]
  rw [hX, List.take_left]
  exact sepJoin_singleton_append segs stem

/-- C6 counterexample: for a store rooted at `/r` holding the single file
`t.gpg` at top level, the code yields the key `"/t"` while the claim
(relative path minus extension) predicts `"t"`: the root-prefix slice
`[len(self.path):-4]` keeps the path separator that follows the root. -/
theorem claim_C6_counterexample :
    get_keys ("/r".data) [([], ["t.gpg".data])] = [['/', 't']]
      ∧ specKeysOrig [([], ["t.gpg".data])] = [['t']]
      ∧ ¬ get_keys ("/r".data) [([], ["t.gpg".data])]
          = specKeysOrig [([], ["t.gpg".data])] := by decide

/-- C6 (amended): `get_keys` returns exactly one key per file under the
store root whose filename ends in `.gpg`, and each such key equals the
file's path with the root-path prefix removed and the `.gpg` extension
removed — that is, a leading `/` followed by the file's path relative to
the root, minus the extension.  Files with any other name yield no key. -/
theorem claim_C6_keys (root : Str) (walk : List (List Str × List Str)) :
    get_keys root walk = specKeysAmended walk := by
  unfold get_keys specKeysAmended
  induction walk with
  | nil => rfl
  | cons w t ih =>
    simp only [List.flatMap_cons]
    rw [ih]
    congr 1
    exact List.map_congr_left
      (fun fn hfn => keyOfFile_eq root w.1 fn (List.mem_filter.mp hfn).2)

theorem pySplitCh_length_pos (c : Char) (s : Str) :
    0 < (pySplitCh c s).length :=
  List.length_pos.mpr (pySplitCh_ne_nil c s)

theorem pySplitCh_length_ge_two (c : Char) (s : Str) (h : c ∈ s) :
    2 ≤ (pySplitCh c s).length := by
  induction s with
  | nil => cases h
  | cons x xs ih =>
    by_cases hx : x = c
    · have := pySplitCh_length_pos c xs
      simp only [pySplitCh, if_pos hx, List.length_cons]
      omega
    · have hmem : c ∈ xs := by
        rcases List.mem_cons.mp h with h1 | h1
        · exact absurd h1.symm hx
        · exact h1
      rcases hs : pySplitCh c xs with _ | ⟨h', t⟩
      · exact absurd hs (pySplitCh_ne_nil c xs)
      · have h2 := ih hmem
        rw [hs] at h2
        simp only [pySplitCh, if_neg hx, hs, List.length_cons] at *
        omega

/-- C7: for every key path containing a separator (every key produced by
`get_keys` starts with `/`), `get_groups` returns the path's segments with
the first (root) and last (filename) segments removed, in order, and
`get_title` returns the last segment.  (On a key with no separator at all
`pop(0)` would raise `IndexError`; such keys are never produced.) -/
theorem claim_C7_groups_title (key : Str) (h : '/' ∈ key) :
    get_groups key = some (((pySplitCh '/' key).drop 1).dropLast)
      ∧ get_title key = (pySplitCh '/' key).getLastD [] := by
  refine ⟨?_, rfl⟩
  have hlen : 2 ≤ (pySplitCh '/' key).length := pySplitCh_length_ge_two '/' key h
  rcases hsp : pySplitCh '/' key with _ | ⟨a, tl⟩
  · rw [hsp] at hlen
    simp at hlen
  · rcases tl with _ | ⟨b, rest⟩
    · rw [hsp] at hlen
      simp at hlen
    · simp [get_groups, hsp]

/-- Witness for C7, including the claim's own illustrations: the key
`/a/b/title` yields groups `["a", "b"]` and title `"title"`, and the key
`/title` (no directory part) yields an empty group list. -/
theorem claim_C7_groups_title_witness :
    ('/' ∈ "/a/b/title".data)
      ∧ (get_groups "/a/b/title".data
            = some (((pySplitCh '/' "/a/b/title".data).drop 1).dropLast)
          ∧ get_title "/a/b/title".data
            = (pySplitCh '/' "/a/b/title".data).getLastD [])
      ∧ get_groups "/a/b/title".data = some ["a".data, "b".data]
      ∧ get_title "/a/b/title".data = "title".data
      ∧ get_groups "/title".data = some [] :=
  ⟨by decide, claim_C7_groups_title ("/a/b/title".data) (by decide),
    by decide, by decide, by decide⟩

/-! ### Lemmas about the group tree -/

theorem addAlong_gname (p : List Str) (e : KEntry) (g : KGroup) :
    (addAlong p e g).gname = g.gname := by
  obtain ⟨n, s, es⟩ := g
  cases p with
  | nil => rfl
  | cons gn rest =>
    simp only [addAlong]
    split <;> rfl

theorem updateFirstNamed_some (g : Str) (f : KGroup → KGroup)
    (l l' : List KGroup) (h : updateFirstNamed g f l = some l') :
    ∃ pre c post, l = pre ++ c :: post ∧ (∀ x ∈ pre, ¬ x.gname = g)
      ∧ c.gname = g ∧ l' = pre ++ f c :: post := by
  induction l generalizing l' with
  | nil => simp [updateFirstNamed] at h
  | cons c t ih =>
    simp only [updateFirstNamed] at h
    by_cases hc : c.gname = g
    · rw [if_pos hc] at h
      exact ⟨[], c, t, by simp, by simp, hc, by simpa using h.symm⟩
    · rw [if_neg hc] at h
      cases hu : updateFirstNamed g f t with
      | some t' =>
        rw [hu] at h
        obtain ⟨pre, c', post, h1, h2, h3, h4⟩ := ih t' hu
        refine ⟨c :: pre, c', post, by simp [h1], ?_, h3, ?_⟩
        · intro x hx
          rcases List.mem_cons.mp hx with h5 | h5
          · subst h5; exact hc
          · exact h2 x h5
        · simp only [Option.some.injEq] at h
          simp [← h, h4]
      | none => rw [hu] at h; cases h

theorem updateFirstNamed_none (g : Str) (f : KGroup → KGroup)
    (l : List KGroup) (h : updateFirstNamed g f l = none) :
    ∀ x ∈ l, ¬ x.gname = g := by
  induction l with
  | nil => intro x hx; cases hx
  | cons c t ih =>
    simp only [updateFirstNamed] at h
    by_cases hc : c.gname = g
    · rw [if_pos hc] at h; cases h
    · rw [if_neg hc] at h
      intro x hx
      rcases List.mem_cons.mp hx with h5 | h5
      · subst h5; exact hc
      · cases hu : updateFirstNamed g f t with
        | some t' => rw [hu] at h; cases h
        | none => exact ih hu x h5

theorem entriesAt_fresh (p : List Str) (n : Str) :
    entriesAt p (.node n [] []) = [] := by
  cases p with
  | nil => rfl
  | cons m rest => simp [entriesAt, lookupPath, KGroup.subgroups]

theorem find?_gname_append_skip (pre rest : List KGroup) (n : Str)
    (hpre : ∀ x ∈ pre, ¬ x.gname = n) :
    (pre ++ rest).find? (fun c => c.gname == n) = rest.find? (fun c => c.gname == n) := by
  rw [List.find?_append]
  have : pre.find? (fun c => c.gname == n) = none := by
    rw [List.find?_eq_none]
    intro x hx
    simpa using hpre x hx
  rw [this]
  rfl

/-- The heart of C2: after `addAlong p e g` the whole chain `p` resolves,
and the entries of the group it reaches are the entries it reached before
(none, if the chain did not resolve) plus the new entry appended. -/
theorem entriesAt_addAlong (p : List Str) (e : KEntry) (g : KGroup) :
    (lookupPath p (addAlong p e g)).isSome = true
      ∧ entriesAt p (addAlong p e g) = entriesAt p g ++ [e] := by
  induction p generalizing g with
  | nil =>
    obtain ⟨n, s, es⟩ := g
    exact ⟨rfl, rfl⟩
  | cons gn rest ih =>
    obtain ⟨n, s, es⟩ := g
    simp only [addAlong]
    cases hu : updateFirstNamed gn (addAlong rest e) s with
    | some s' =>
      obtain ⟨pre, c, post, hs, hpre, hc, hs'⟩ :=
        updateFirstNamed_some _ _ _ _ hu
      subst hs hs'
      have hfind_new : (pre ++ addAlong rest e c :: post).find?
          (fun x => x.gname == gn) = some (addAlong rest e c) := by
        rw [find?_gname_append_skip pre _ gn hpre]
        apply List.find?_cons_of_pos
        simp [addAlong_gname, hc]
      have hfind_old : (pre ++ c :: post).find?
          (fun x => x.gname == gn) = some c := by
        rw [find?_gname_append_skip pre _ gn hpre]
        apply List.find?_cons_of_pos
        simp [hc]
      constructor
      · simp only [lookupPath, KGroup.subgroups, hfind_new]
        exact (ih c).1
      · simp only [entriesAt, lookupPath, KGroup.subgroups, hfind_new,
          hfind_old]
        have := (ih c).2
        simp only [entriesAt] at this
        exact this
    | none =>
      have hnone : ∀ x ∈ s, ¬ x.gname = gn := updateFirstNamed_none _ _ _ hu
      have hg : (addAlong rest e (KGroup.node gn [] [])).gname = gn :=
        addAlong_gname rest e (KGroup.node gn [] [])
      have hfind_new : (s ++ [addAlong rest e (.node gn [] [])]).find?
          (fun x => x.gname == gn) = some (addAlong rest e (.node gn [] [])) := by
        rw [find?_gname_append_skip s _ gn hnone]
        apply List.find?_cons_of_pos
        simp [hg]
      have hfind_old : s.find? (fun x => x.gname == gn) = none := by
        rw [List.find?_eq_none]
        intro x hx
        simpa using hnone x hx
      constructor
      · simp only [lookupPath, KGroup.subgroups, hfind_new]
        exact (ih (.node gn [] [])).1
      · simp only [entriesAt, lookupPath, KGroup.subgroups, hfind_new,
          hfind_old]
        have := (ih (.node gn [] [])).2
        simp only [entriesAt] at this
        rw [this]
        have hf := entriesAt_fresh rest gn
        simp only [entriesAt] at hf
        rw [hf]

theorem sibUnique_names {n : Str} {s : List KGroup} {es : List KEntry}
    (h : SibUnique (.node n s es)) : (s.map KGroup.gname).Nodup := by
  cases h
  assumption

theorem sibUnique_sub {n : Str} {s : List KGroup} {es : List KEntry}
    (h : SibUnique (.node n s es)) : ∀ g ∈ s, SibUnique g := by
  cases h
  assumption

/-- The heart of C8: `addAlong` preserves sibling-name uniqueness — an
existing group is descended into, and a new group is appended only when no
sibling bears its name. -/
theorem sibUnique_addAlong (p : List Str) (e : KEntry) (g : KGroup)
    (h : SibUnique g) : SibUnique (addAlong p e g) := by
  induction p generalizing g with
  | nil =>
    obtain ⟨n, s, es⟩ := g
    exact SibUnique.node n s _ (sibUnique_names h) (sibUnique_sub h)
  | cons gn rest ih =>
    obtain ⟨n, s, es⟩ := g
    simp only [addAlong]
    cases hu : updateFirstNamed gn (addAlong rest e) s with
    | some s' =>
      obtain ⟨pre, c, post, hs, hpre, hc, hs'⟩ :=
        updateFirstNamed_some _ _ _ _ hu
      subst hs hs'
      apply SibUnique.node
      · have : (pre ++ addAlong rest e c :: post).map KGroup.gname
            = (pre ++ c :: post).map KGroup.gname := by
          simp [addAlong_gname]
        rw [this]
        exact sibUnique_names h
      · intro x hx
        rcases List.mem_append.mp hx with h5 | h5
        · exact sibUnique_sub h x (List.mem_append.mpr (Or.inl h5))
        · rcases List.mem_cons.mp h5 with h6 | h6
          · subst h6
            exact ih c (sibUnique_sub h c (by simp))
          · exact sibUnique_sub h x (by simp [h6])
    | none =>
      have hnone : ∀ x ∈ s, ¬ x.gname = gn := updateFirstNamed_none _ _ _ hu
      apply SibUnique.node
      · rw [List.map_append]
        have hg : (addAlong rest e (KGroup.node gn [] [])).gname = gn :=
          addAlong_gname rest e (KGroup.node gn [] [])
        have hng : [addAlong rest e (.node gn [] [])].map KGroup.gname
            = [gn] := by
          simp [hg]
        rw [hng]
        rw [List.nodup_append]
        refine ⟨sibUnique_names h, List.nodup_singleton gn, ?_⟩
        intro a ha hb
        simp only [List.mem_singleton] at hb
        subst hb
        obtain ⟨x, hx, hxe⟩ := List.mem_map.mp ha
        exact hnone x hx hxe
      · intro x hx
        rcases List.mem_append.mp hx with h5 | h5
        · exact sibUnique_sub h x h5
        · rcases List.mem_cons.mp h5 with h6 | h6
          · subst h6
            exact ih _ (SibUnique.node gn [] [] (by simp) (by simp))
          · cases h6

/-! ### The entry built by `add_key` -/

theorem foldl_setProp_fields (ps : List (Str × Str)) (acc : KEntry) :
    (ps.foldl (fun acc p =>
        { acc with props := dictUpdate acc.props p.1 p.2 }) acc).title
        = acc.title
      ∧ (ps.foldl (fun acc p =>
          { acc with props := dictUpdate acc.props p.1 p.2 }) acc).username
        = acc.username
      ∧ (ps.foldl (fun acc p =>
          { acc with props := dictUpdate acc.props p.1 p.2 }) acc).password
        = acc.password
      ∧ (ps.foldl (fun acc p =>
          { acc with props := dictUpdate acc.props p.1 p.2 }) acc).url
        = acc.url
      ∧ (ps.foldl (fun acc p =>
          { acc with props := dictUpdate acc.props p.1 p.2 }) acc).notes
        = acc.notes := by
  induction ps generalizing acc with
  | nil => exact ⟨rfl, rfl, rfl, rfl, rfl⟩
  | cons p t ih =>
    rw [List.foldl_cons]
    exact ih _

theorem foldl_setProp_props (ps : List (Str × Str)) (acc : KEntry) (n : Str) :
    dictGet (ps.foldl (fun acc p =>
        { acc with props := dictUpdate acc.props p.1 p.2 }) acc).props n
      = (lastVal n ps).elim (dictGet acc.props n) some := by
  induction ps generalizing acc with
  | nil => simp [lastVal]
  | cons p t ih =>
    rw [List.foldl_cons, ih, lastVal_cons]
    cases hl : lastVal n t with
    | some v => simp
    | none =>
      simp only [Option.elim]
      by_cases h : p.1 = n
      · rw [if_pos h]
        show dictGet (dictUpdate acc.props p.1 p.2) n = some p.2
        rw [h, dictGet_dictUpdate_self]
      · rw [if_neg h]
        exact dictGet_dictUpdate_ne _ _ _ _ h

theorem fsGet_fsSet (fs : FS) (p : Str) (f : KFile) :
    fsGet (fsSet fs p f) p = some f := by
  induction fs with
  | nil => simp [fsSet, fsGet]
  | cons q t ih =>
    obtain ⟨qp, qf⟩ := q
    simp only [fsSet]
    by_cases h : qp = p
    · simp [fsGet, h]
    · simp [fsGet, h, ih]

/-! ## Claims about the database (C1, C2, C8, C10) -/

/-- C2: `add_key` resolves or creates the key's group chain (the chain
resolves afterwards), appends to that group exactly one new entry, and
that entry carries the key's title, user, secret, url and notes, with
every custom pair set as an additional field (`lastVal` of the custom
list, which the parser builds with distinct names); `populate_db` adds
every parsed key this way and saves the container afterward, so the
destination file holds the database with all the entries. -/
theorem claim_C2_entry_population (root : KGroup) (k : PassKey) (n : Str)
    (st : P2KP2St) (keys : List PassKey) (fs : FS) :
    (lookupPath k.groups (add_key root k)).isSome = true
      ∧ entriesAt k.groups (add_key root k)
        = entriesAt k.groups root ++ [entryOfKey k]
      ∧ (entryOfKey k).title = k.title
      ∧ (entryOfKey k).username = k.user
      ∧ (entryOfKey k).password = k.password
      ∧ (entryOfKey k).url = k.url
      ∧ (entryOfKey k).notes = k.notes
      ∧ dictGet (entryOfKey k).props n = lastVal n k.custom_properties
      ∧ (populate_db st keys fs).1.db.root = keys.foldl add_key st.db.root
      ∧ fsGet (populate_db st keys fs).2 st.destination
        = some (.kdbx st.db.password (keys.foldl add_key st.db.root)) := by
  refine ⟨(entriesAt_addAlong k.groups (entryOfKey k) root).1,
    (entriesAt_addAlong k.groups (entryOfKey k) root).2,
    (foldl_setProp_fields k.custom_properties _).1,
    (foldl_setProp_fields k.custom_properties _).2.1,
    (foldl_setProp_fields k.custom_properties _).2.2.1,
    (foldl_setProp_fields k.custom_properties _).2.2.2.1,
    (foldl_setProp_fields k.custom_properties _).2.2.2.2,
    ?_, rfl, fsGet_fsSet _ _ _⟩
  have hp := foldl_setProp_props k.custom_properties
    ⟨k.title, k.user, k.password, k.url, k.notes, []⟩ n
  have h2 : (lastVal n k.custom_properties).elim
      (dictGet ([] : List (Str × Str)) n) some
      = lastVal n k.custom_properties := by
    cases lastVal n k.custom_properties <;> rfl
  exact hp.trans h2

/-- C8: group lookup in `add_key` is by name among the direct children of the
current parent and a group is created only when absent, so from a database
with no duplicate sibling group names, adding any sequence of keys never
creates two sibling groups with the same name. -/
theorem claim_C8_sibling_names_unique (root : KGroup) (keys : List PassKey)
    (h : SibUnique root) : SibUnique (keys.foldl add_key root) := by
  induction keys generalizing root with
  | nil => exact h
  | cons k t ih =>
    rw [List.foldl_cons]
    exact ih _ (sibUnique_addAlong k.groups (entryOfKey k) root h)

/-- Witness for C8: two keys sharing the group `a`, added to an empty
root. -/
theorem claim_C8_sibling_names_unique_witness :
    SibUnique (KGroup.node ("Root".data) [] [])
      ∧ SibUnique
        ([(⟨["a".data, "b".data], "t1".data, "p1".data, [], [], [], []⟩ :
              PassKey),
          (⟨["a".data], "t2".data, "p2".data, [], [], [], []⟩ :
              PassKey)].foldl add_key (KGroup.node ("Root".data) [] [])) := by
  have h : SibUnique (KGroup.node ("Root".data) [] []) :=
    SibUnique.node _ _ _ (by simp) (by simp)
  exact ⟨h, claim_C8_sibling_names_unique _ _ h⟩

/-- C1: constructing the target database fails with
`DbAlreadyExistsException` — leaving the file system untouched — whenever
the destination file exists and overwrite was not requested; otherwise it
succeeds, and the destination then holds the empty template database
secured with the supplied password, which is also the password of the
returned database object. -/
theorem claim_C1_target_creation (tmpl : PyKP) (pw dest : Str) (ow : Bool)
    (fs : FS) :
    ((fsGet fs dest).isSome = true → ow = false →
        P2KP2_init_ow tmpl pw dest ow fs = (fs, .error .mk))
      ∧ (¬ ((fsGet fs dest).isSome = true ∧ ow = false) →
        ∃ db fs', P2KP2_init_ow tmpl pw dest ow fs = (fs', .ok db)
          ∧ db.password = pw ∧ db.root = tmpl.root
          ∧ fsGet fs' dest = some (KFile.kdbx pw tmpl.root)) := by
  constructor
  · intro h1 h2
    simp [P2KP2_init_ow, h1, h2]
  · intro h
    have hc : ((fsGet fs dest).isSome && !ow) = false := by
      cases hs : (fsGet fs dest).isSome
      · simp
      · cases ho : ow
        · exact absurd ⟨hs, ho⟩ h
        · simp [ho]
    refine ⟨{ tmpl with password := pw },
      fsSet (fsSet fs dest (KFile.kdbx tmpl.password tmpl.root)) dest
        (KFile.kdbx pw tmpl.root), ?_, rfl, rfl, fsGet_fsSet _ _ _⟩
    unfold P2KP2_init_ow
    rw [if_neg (by simp [hc])]

/-- Witness for C1: an occupied destination with overwrite off raises; a
free destination succeeds and secures the new file with the password. -/
theorem claim_C1_target_creation_witness :
    ((fsGet [("pass.kdbx".data, KFile.blob 0)] ("pass.kdbx".data)).isSome
        = true)
      ∧ P2KP2_init_ow ⟨"x".data, KGroup.node ("Root".data) [] []⟩
          ("pw".data) ("pass.kdbx".data) false
          [("pass.kdbx".data, KFile.blob 0)]
        = ([("pass.kdbx".data, KFile.blob 0)], .error .mk)
      ∧ (∃ db fs',
          P2KP2_init_ow ⟨"x".data, KGroup.node ("Root".data) [] []⟩
            ("pw".data) ("pass.kdbx".data) false []
          = (fs', .ok db)
          ∧ db.password = "pw".data
          ∧ db.root = KGroup.node ("Root".data) [] []
          ∧ fsGet fs' ("pass.kdbx".data)
            = some (KFile.kdbx ("pw".data) (KGroup.node ("Root".data) [] []))) :=
  ⟨by decide,
    (claim_C1_target_creation ⟨"x".data, KGroup.node ("Root".data) [] []⟩
      ("pw".data) ("pass.kdbx".data) false
      [("pass.kdbx".data, KFile.blob 0)]).1 (by decide) rfl,
    (claim_C1_target_creation ⟨"x".data, KGroup.node ("Root".data) [] []⟩
      ("pw".data) ("pass.kdbx".data) false []).2
      (by intro hcon; exact absurd hcon.1 (by decide))⟩

/-- C10: when the destination file already exists, `P2KP2.__init__` of
src/pass2keepass2.py raises `DbAlreadyExistsException` and the file system
is returned exactly as it was: the existence check precedes every write,
and no path of the constructor overwrites an existing destination. -/
theorem claim_C10_existing_file_untouched (tmpl : PyKP) (pw dest : Str)
    (fs : FS) (h : (fsGet fs dest).isSome = true) :
    P2KP2_init tmpl pw dest fs = (fs, .error .mk) := by
  unfold P2KP2_init
  rw [if_pos h]

/-- Witness for C10 at a concrete occupied file system. -/
theorem claim_C10_existing_file_untouched_witness :
    ((fsGet [("pass.kdbx".data, KFile.blob 7)] ("pass.kdbx".data)).isSome
        = true)
      ∧ P2KP2_init ⟨"x".data, KGroup.node ("Root".data) [] []⟩ ("pw".data)
          ("pass.kdbx".data) [("pass.kdbx".data, KFile.blob 7)]
        = ([("pass.kdbx".data, KFile.blob 7)], .error .mk) :=
  ⟨by decide,
    claim_C10_existing_file_untouched ⟨"x".data, KGroup.node ("Root".data) [] []⟩
      ("pw".data) ("pass.kdbx".data) [("pass.kdbx".data, KFile.blob 7)]
      (by decide)⟩

end P2KP2V

